import Mathlib

/-!
Verification of the shared training-loop helper (`common/trainer.py`) and the
padding utility (`common/utils.py`) of the nlp-nnabla repository.

Python dictionaries are embedded as association lists kept in insertion
order: assignment `d[k] = v` replaces the stored value in place when the key
is already present and appends a fresh entry otherwise, mirroring CPython
semantics.  Computation-graph nodes (`nn.Variable`) are identified by numeric
ids, so Python `is` comparison becomes equality of ids; the scalar value that
a node carries after `forward` has been run on batch `i` of an epoch is
supplied by an oracle `v : Nat → CompId → ℚ` (the numeric engine is opaque,
so the values are parameters of the embedding).  Scalars are rationals,
abstracting numpy's floating point arithmetic; `np.mean` becomes sum divided
by length.  Side effects of the loop (pulling a batch, `forward`, `backward`,
`zero_grad`, `update`, `MonitorSeries.add`, plot rendering, checkpoint
writing) are recorded in an event trace.
-/

/-- Identity of a computation-graph node (`nn.Variable`). -/
abbrev CompId := Nat

/-- First value bound to key `k`, mirroring a Python `d[k]` lookup. -/
def dictGet {α : Type} : List (String × α) → String → Option α
  | [], _ => none
  | p :: rest, k => if p.1 = k then some p.2 else dictGet rest k

/-- Python `d[k] = v`: replace the value in place when the key is present,
append a fresh entry otherwise. -/
def dictInsert {α : Type} (k : String) (v : α) : List (String × α) → List (String × α)
  | [] => [(k, v)]
  | p :: rest => if p.1 = k then (k, v) :: rest else p :: dictInsert k v rest

/-- In-place mutation of the value object stored under key `k` (Python
`d[k].append(...)`-style updates). -/
def dictUpd {α : Type} (d : List (String × α)) (k : String) (f : α → α) : List (String × α) :=
  d.map (fun q => if q.1 = k then (q.1, f q.2) else q)

/-- The keys of a dictionary, in insertion order. -/
def dictKeys {α : Type} (d : List (String × α)) : List String :=
  d.map Prod.fst

/-- Python `key.replace(' ', '-')` for the single-character pattern: every
space character becomes a hyphen and every other character is unchanged. -/
def replaceSpaceHyphen (s : String) : String :=
  ⟨s.data.map (fun c => if c = ' ' then '-' else c)⟩

/-- Python `' ' in key`. -/
def hasSpace (s : String) : Bool :=
  s.data.contains ' '

/-- Trainer._init_metrics: an empty metric mapping defaults to the single
entry `"loss"` bound to the loss node; a non-empty mapping is rebuilt entry by
entry with spaces in keys replaced by hyphens. -/
def init_metrics (metrics : List (String × CompId)) (loss : CompId) :
    List (String × CompId) :=
  if metrics.length = 0 then
    dictInsert "loss" loss metrics
  else
    metrics.foldl
      (fun ret p =>
        if hasSpace p.1 then dictInsert (replaceSpaceHyphen p.1) p.2 ret
        else dictInsert p.1 p.2 ret)
      []

/-- Model of `np.mean` on the recorded per-batch scalars. -/
def npMean (l : List ℚ) : ℚ :=
  l.sum / l.length

/-- Phase label appended to metric names in an EpochResult. -/
def phaseName (train : Bool) : String :=
  if train then "train" else "valid"

/-- Observable side effects of the training loop, in program order. -/
inductive Event : Type
  | nextBatch : Event
  | forward : CompId → Event
  | zeroGrad : Event
  | backward : CompId → Event
  | update : Event
  | epochStart : Int → Bool → Bool → Event
  | logResult : String → Int → ℚ → Event
  | saveFig : Event
  | snapshot : Int → Event
deriving DecidableEq

/-- Recognizes the start-of-epoch marker (the `tqdm` progress bar of
`_run_one_epoch`, carrying the displayed epoch, the train flag and whether the
epoch indicator is shown). -/
def Event.isEpochStart : Event → Bool
  | .epochStart _ _ _ => true
  | _ => false

/-- Recognizes the start of a training epoch. -/
def Event.isTrainEpochStart : Event → Bool
  | .epochStart _ true _ => true
  | _ => false

/-- Recognizes a checkpoint write (`Trainer.snapshot`). -/
def Event.isSnapshot : Event → Bool
  | .snapshot _ => true
  | _ => false

/-- Recognizes a parameter update (`solver.update()`). -/
def Event.isUpdate : Event → Bool
  | .update => true
  | _ => false

/-- Recognizes a `MonitorSeries.add` call. -/
def Event.isLogResult : Event → Bool
  | .logResult _ _ _ => true
  | _ => false

/-- The flag `loss_forward` of `_run_one_epoch`: starts `True` and is cleared
when some registered metric is the loss node itself. -/
def lossForwardFlag (metrics : List (String × CompId)) (loss : CompId) : Bool :=
  metrics.foldl (fun acc p => if p.2 = loss then false else acc) true

/-- Side effects of one batch of `_run_one_epoch`: pull the next batch, run
`forward` on every registered metric, and when training run `forward` on the
loss unless it was already evaluated as a metric, then `zero_grad`,
`backward`, `update`. -/
def batchEvents (metrics : List (String × CompId)) (loss : CompId) (train : Bool) :
    List Event :=
  Event.nextBatch ::
    (metrics.map (fun p => Event.forward p.2) ++
      (if train then
        (if lossForwardFlag metrics loss then [Event.forward loss] else []) ++
          [Event.zeroGrad, Event.backward loss, Event.update]
      else []))

/-- One iteration of the batch loop of `_run_one_epoch`: append a copy of each
metric's current value to `metrics_logger` and emit the batch's events. -/
def epochBatch (metrics : List (String × CompId)) (loss : CompId) (v : Nat → CompId → ℚ)
    (train : Bool) (acc : List (String × List ℚ) × List Event) (i : Nat) :
    List (String × List ℚ) × List Event :=
  (metrics.foldl (fun lg p => dictUpd lg p.1 (fun l => l ++ [v i p.2])) acc.1,
   acc.2 ++ batchEvents metrics loss train)

/-- Trainer._run_one_epoch: build `metrics_logger` over `num_batch` batches
(starting from `_init_metrics_logger`, which maps every metric key to an empty
list) and return the EpochResult mapping `key ++ "-" ++ phase` to the mean of
the recorded values, together with the event trace of the epoch. -/
def run_one_epoch (metrics : List (String × CompId)) (loss : CompId) (v : Nat → CompId → ℚ)
    (num_batch : Nat) (epoch : Int) (train : Bool) (show_epoch : Bool) :
    List (String × ℚ) × List Event :=
  let start := (metrics.map (fun p => (p.1, ([] : List ℚ))),
                [Event.epochStart epoch train show_epoch])
  let fin := (List.range num_batch).foldl (epochBatch metrics loss v train) start
  (fin.1.foldl (fun res q => dictInsert (q.1 ++ "-" ++ phaseName train) (npMean q.2) res) [],
   fin.2)

/-- The batch sources of `nnabla.utils.data_iterator`, reduced to what the
trainer reads: the number of per-call variables, the batch size, and the total
example count. -/
structure DataIterator where
  vars : Nat
  batch_size : Nat
  size : Nat
deriving DecidableEq

/-- The mutable state of a `Trainer`: input shapes, the loss node, the metric
registry, the `monitor_series` store and the epoch counter. -/
structure TrainerState where
  inputs : List (List Nat)
  loss : CompId
  metrics : List (String × CompId)
  monitor_series : List (String × List (Int × ℚ))
  current_epoch : Int

/-- One `MonitorSeries.add` on the store: create the series on first sight of
the key, then append the (epoch index, value) pair. -/
def addSeries (store : List (String × List (Int × ℚ))) (k : String) (idx : Int)
    (value : ℚ) : List (String × List (Int × ℚ)) :=
  let store1 := if k ∈ dictKeys store then store else store ++ [(k, [])]
  dictUpd store1 k (fun l => l ++ [(idx, value)])

/-- One entry of `Trainer.save_result`: create-or-append the series for this
key, using index `current_epoch + 1` for a trained epoch and `current_epoch`
for a standalone evaluation. -/
def saveResultStep (evaluate : Bool) (acc : TrainerState × List Event) (p : String × ℚ) :
    TrainerState × List Event :=
  let idx : Int := if evaluate then acc.1.current_epoch else acc.1.current_epoch + 1
  ({ acc.1 with monitor_series := addSeries acc.1.monitor_series p.1 idx p.2 },
   acc.2 ++ [Event.logResult p.1 idx p.2])

/-- Trainer.save_result: append every entry of the EpochResult to the series
store, indexed by `current_epoch + 1` for a trained epoch and by
`current_epoch` for a standalone evaluation. -/
def save_result (st : TrainerState) (result : List (String × ℚ)) (evaluate : Bool) :
    TrainerState × List Event :=
  result.foldl (saveResultStep evaluate) (st, [])

/-- The optional validation pass inside one iteration of `Trainer.run`
(number of validation batches is recomputed inside the loop). -/
def validPass (st : TrainerState) (vOracle : Nat → CompId → ℚ)
    (valid_iter : Option DataIterator) (batch_size : Nat) (epoch : Int) :
    TrainerState × List Event :=
  match valid_iter with
  | none => (st, [])
  | some vi =>
      let nb := vi.size / batch_size
      let er := run_one_epoch st.metrics st.loss vOracle nb epoch false false
      let sr := save_result st er.1 false
      (sr.1, er.2 ++ sr.2)

/-- The epoch loop of `Trainer.run`: for each remaining epoch run a training
epoch, log it, optionally run a validation epoch and log it, re-render the
plots, write a checkpoint, and increment `current_epoch`. -/
def runEpochLoop (tOracle vOracle : Int → Nat → CompId → ℚ)
    (valid_iter : Option DataIterator) (num_train_batch batch_size : Nat) :
    Nat → Int → TrainerState → TrainerState × List Event
  | 0, _, st => (st, [])
  | rem + 1, epoch, st =>
      let er := run_one_epoch st.metrics st.loss (tOracle epoch) num_train_batch epoch true true
      let sr := save_result st er.1 false
      let vp := validPass sr.1 (vOracle epoch) valid_iter batch_size epoch
      let st3 := { vp.1 with current_epoch := vp.1.current_epoch + 1 }
      let rest := runEpochLoop tOracle vOracle valid_iter num_train_batch batch_size rem
        (epoch + 1) st3
      (rest.1,
       er.2 ++ sr.2 ++ vp.2 ++
         [Event.saveFig, Event.snapshot (vp.1.current_epoch + 1)] ++ rest.2)

/-- Variable-count precondition for an optional iterator. -/
def varsOk (inputs_len : Nat) : Option DataIterator → Bool
  | none => true
  | some vi => vi.vars == inputs_len

/-- Batch-size precondition for an optional iterator. -/
def batchSizeOk (batch_size : Nat) : Option DataIterator → Bool
  | none => true
  | some vi => vi.batch_size == batch_size

/-- Trainer.run: check the variable-count and batch-size preconditions once,
then run the epoch loop starting at `current_epoch`.  The batch size is the
leading dimension of the first declared input (an empty input list or shape is
a Python `IndexError`). -/
def Trainer.run (st : TrainerState) (tOracle vOracle : Int → Nat → CompId → ℚ)
    (train_iter : DataIterator) (valid_iter : Option DataIterator) (epochs : Nat) :
    Except String (TrainerState × List Event) :=
  if train_iter.vars ≠ st.inputs.length then
    .error "the number of varibales received from iterator must be equal to the number of input variables"
  else if varsOk st.inputs.length valid_iter = false then
    .error "the number of varibales received from iterator must be equal to the number of input variables"
  else
    match st.inputs with
    | [] => .error "IndexError: list index out of range"
    | shape0 :: _ =>
        match shape0 with
        | [] => .error "IndexError: tuple index out of range"
        | batch_size :: _ =>
            if train_iter.batch_size ≠ batch_size then
              .error "AssertionError: train_iter.batch_size == batch_size"
            else if batchSizeOk batch_size valid_iter = false then
              .error "AssertionError: valid_iter.batch_size == batch_size"
            else
              .ok (runEpochLoop tOracle vOracle valid_iter (train_iter.size / batch_size)
                    batch_size epochs st.current_epoch st)

/-- Trainer.evaluate: after the same precondition checks, run exactly one
validation epoch against `current_epoch - 1` with the epoch indicator
suppressed, log it with the standalone-evaluation indexing rule, and re-render
the plots.  No checkpoint is written and `current_epoch` is not changed. -/
def Trainer.evaluate (st : TrainerState) (vOracle : Nat → CompId → ℚ)
    (valid_iter : DataIterator) : Except String (TrainerState × List Event) :=
  if valid_iter.vars ≠ st.inputs.length then
    .error "AssertionError: len(valid_iter.vars) == len(self.inputs)"
  else
    match st.inputs with
    | [] => .error "IndexError: list index out of range"
    | shape0 :: _ =>
        match shape0 with
        | [] => .error "IndexError: tuple index out of range"
        | batch_size :: _ =>
            if valid_iter.batch_size ≠ batch_size then
              .error "AssertionError: valid_iter.batch_size == batch_size"
            else
              let nb := valid_iter.size / batch_size
              let er := run_one_epoch st.metrics st.loss vOracle nb (st.current_epoch - 1)
                false false
              let sr := save_result st er.1 true
              .ok (sr.1, er.2 ++ sr.2 ++ [Event.saveFig])

/-- Specification-side description of the events of one iteration of the
epoch loop, used to state that `Trainer.run` performs, per epoch and in
order: a training epoch, its logging, an optional validation epoch with its
logging, plot re-rendering, and one checkpoint write. -/
def iterTrace (metrics : List (String × CompId)) (loss : CompId)
    (tOracle vOracle : Int → Nat → CompId → ℚ) (valid_iter : Option DataIterator)
    (num_train_batch batch_size : Nat) (epoch : Int) : List Event :=
  let er := run_one_epoch metrics loss (tOracle epoch) num_train_batch epoch true true
  let vevs :=
    match valid_iter with
    | none => []
    | some vi =>
        let ver := run_one_epoch metrics loss (vOracle epoch) (vi.size / batch_size) epoch
          false false
        ver.2 ++ ver.1.map (fun p => Event.logResult p.1 (epoch + 1) p.2)
  er.2 ++ er.1.map (fun p => Event.logResult p.1 (epoch + 1) p.2) ++ vevs ++
    [Event.saveFig, Event.snapshot (epoch + 1)]

/-- The inner `_with_padding` closure of `utils.with_padding`: truncate to the
first `max_sequence_length` elements, then pad with zeros, appended for
`"post"` and prepended for `"pre"`; any other padding type raises. -/
def with_padding_one (max_sequence_length : Nat) (padding_type : String)
    (sequence : List Int) : Except String (List Int) :=
  let s := sequence.take max_sequence_length
  let pad_length := max_sequence_length - s.length
  if padding_type = "post" then .ok (s ++ List.replicate pad_length 0)
  else if padding_type = "pre" then .ok (List.replicate pad_length 0 ++ s)
  else .error "padding type error. padding type must be post or pre"

/-- The element coercion performed by `np.array(..., dtype=np.int32)` on the
repository-era numpy: every element is wrapped into the 32-bit signed range
`[-2^31, 2^31)` modulo `2^32`. -/
def toInt32 (x : Int) : Int :=
  let r := x % 4294967296
  if r < 2147483648 then r else r - 4294967296

/-- utils.with_padding: when `max_sequence_length` is `None` it is computed as
the maximum sequence length (Python `max` raises on an empty argument), and
when given it must be a positive integer; each sequence is then padded or
truncated by `with_padding_one`, and the resulting rows are materialized as
`np.array(..., dtype=np.int32)`, which wraps each element into int32 range. -/
def with_padding (sequences : List (List Int)) (padding_type : String)
    (max_sequence_length : Option Int) : Except String (List (List Int)) :=
  match max_sequence_length with
  | none =>
      match sequences with
      | [] => .error "ValueError: max() arg is an empty sequence"
      | _ :: _ =>
          let m := (sequences.map List.length).foldl max 0
          match sequences.mapM (with_padding_one m padding_type) with
          | .error e => .error e
          | .ok rows => .ok (rows.map (fun row => row.map toInt32))
  | some m =>
      if m ≤ 0 then .error "AssertionError: max_sequence_length must be a positive integer."
      else
        match sequences.mapM (with_padding_one m.toNat padding_type) with
        | .error e => .error e
        | .ok rows => .ok (rows.map (fun row => row.map toInt32))

theorem dictGet_nil {α : Type} (k : String) : dictGet ([] : List (String × α)) k = none := rfl

theorem dictGet_cons {α : Type} (p : String × α) (rest : List (String × α)) (k : String) :
    dictGet (p :: rest) k = if p.1 = k then some p.2 else dictGet rest k := rfl

theorem dictKeys_nil {α : Type} : dictKeys ([] : List (String × α)) = [] := rfl

theorem dictKeys_cons {α : Type} (p : String × α) (d : List (String × α)) :
    dictKeys (p :: d) = p.1 :: dictKeys d := rfl

theorem dictKeys_append {α : Type} (d₁ d₂ : List (String × α)) :
    dictKeys (d₁ ++ d₂) = dictKeys d₁ ++ dictKeys d₂ :=
  List.map_append _ _ _

theorem dictGet_dictInsert_self {α : Type} (k : String) (v : α) (d : List (String × α)) :
    dictGet (dictInsert k v d) k = some v := by
  induction d with
  | nil => simp [dictInsert, dictGet]
  | cons p rest ih =>
      by_cases h : p.1 = k
      · simp [dictInsert, h, dictGet]
      · simp [dictInsert, h, dictGet, ih]

theorem dictGet_dictInsert_ne {α : Type} (k q : String) (v : α) (d : List (String × α))
    (h : q ≠ k) : dictGet (dictInsert k v d) q = dictGet d q := by
  have hkq : ¬ k = q := fun hh => h hh.symm
  induction d with
  | nil => simp [dictInsert, dictGet, hkq]
  | cons p rest ih =>
      by_cases hp : p.1 = k
      · have hpq : ¬ p.1 = q := by rw [hp]; exact hkq
        simp [dictInsert, hp, dictGet, hkq, hpq]
      · simp [dictInsert, hp, dictGet, ih]

theorem dictGet_append {α : Type} (d₁ d₂ : List (String × α)) (k : String) :
    dictGet (d₁ ++ d₂) k = ((dictGet d₁ k).or (dictGet d₂ k)) := by
  induction d₁ with
  | nil => simp [dictGet]
  | cons p rest ih =>
      by_cases h : p.1 = k
      · simp [dictGet, h]
      · simp [dictGet, h, ih]

theorem dictGet_eq_none_iff {α : Type} (d : List (String × α)) (k : String) :
    dictGet d k = none ↔ k ∉ dictKeys d := by
  induction d with
  | nil => simp [dictGet, dictKeys]
  | cons p rest ih =>
      rw [dictGet_cons, dictKeys_cons, List.mem_cons]
      by_cases h : p.1 = k
      · rw [if_pos h]
        constructor
        · intro hc; exact Option.noConfusion hc
        · intro hc; exact absurd (Or.inl h.symm) hc
      · have hne : ¬ k = p.1 := fun hh => h hh.symm
        simp [h, hne, ih]

theorem dictKeys_dictInsert {α : Type} (k : String) (v : α) (d : List (String × α)) :
    dictKeys (dictInsert k v d) =
      if k ∈ dictKeys d then dictKeys d else dictKeys d ++ [k] := by
  induction d with
  | nil => simp [dictInsert, dictKeys]
  | cons p rest ih =>
      by_cases hp : p.1 = k
      · have hk : k ∈ dictKeys (p :: rest) := by
          rw [dictKeys_cons, List.mem_cons]
          exact Or.inl hp.symm
        rw [if_pos hk]
        simp [dictInsert, hp, dictKeys]
      · have hne : ¬ k = p.1 := fun hh => hp hh.symm
        simp only [dictInsert, if_neg hp, dictKeys_cons]
        by_cases hm : k ∈ dictKeys rest
        · rw [ih, if_pos hm, if_pos (List.mem_cons.mpr (Or.inr hm))]
        · rw [ih, if_neg hm, if_neg (by rw [List.mem_cons]; push_neg; exact ⟨hne, hm⟩)]
          simp

theorem dictInsert_of_not_mem {α : Type} (k : String) (v : α) (d : List (String × α))
    (h : k ∉ dictKeys d) : dictInsert k v d = d ++ [(k, v)] := by
  induction d with
  | nil => simp [dictInsert]
  | cons p rest ih =>
      rw [dictKeys_cons, List.mem_cons] at h
      push_neg at h
      have hp : ¬ p.1 = k := fun hh => h.1 hh.symm
      simp [dictInsert, hp, ih h.2]

theorem dictGet_dictUpd_self {α : Type} (d : List (String × α)) (k : String) (f : α → α) :
    dictGet (dictUpd d k f) k = (dictGet d k).map f := by
  induction d with
  | nil => rfl
  | cons p rest ih =>
      by_cases h : p.1 = k
      · simp [dictUpd, dictGet, h]
      · simp only [dictUpd, List.map_cons, if_neg h, dictGet_cons, if_neg h]
        simpa [dictUpd] using ih

theorem dictGet_dictUpd_ne {α : Type} (d : List (String × α)) (k q : String) (f : α → α)
    (h : q ≠ k) : dictGet (dictUpd d k f) q = dictGet d q := by
  induction d with
  | nil => rfl
  | cons p rest ih =>
      by_cases hp : p.1 = k
      · have hpq : ¬ p.1 = q := by rw [hp]; exact fun hh => h hh.symm
        simp only [dictUpd, List.map_cons, if_pos hp, dictGet_cons, if_neg hpq]
        simpa [dictUpd] using ih
      · simp only [dictUpd, List.map_cons, if_neg hp, dictGet_cons]
        by_cases hq : p.1 = q
        · rw [if_pos hq, if_pos hq]
        · rw [if_neg hq, if_neg hq]
          simpa [dictUpd] using ih

theorem dictKeys_dictUpd {α : Type} (d : List (String × α)) (k : String) (f : α → α) :
    dictKeys (dictUpd d k f) = dictKeys d := by
  induction d with
  | nil => rfl
  | cons p rest ih =>
      by_cases h : p.1 = k
      · simp only [dictUpd, List.map_cons, if_pos h, dictKeys_cons]
        rw [show List.map (fun q => if q.1 = k then (q.1, f q.2) else q) rest = dictUpd rest k f
          from rfl, ih]
      · simp only [dictUpd, List.map_cons, if_neg h, dictKeys_cons]
        rw [show List.map (fun q => if q.1 = k then (q.1, f q.2) else q) rest = dictUpd rest k f
          from rfl, ih]

theorem dictUpd_of_not_mem {α : Type} (d : List (String × α)) (k : String) (f : α → α)
    (h : k ∉ dictKeys d) : dictUpd d k f = d := by
  induction d with
  | nil => rfl
  | cons p rest ih =>
      rw [dictKeys_cons, List.mem_cons] at h
      push_neg at h
      have hp : ¬ p.1 = k := fun hh => h.1 hh.symm
      simp only [dictUpd, List.map_cons, if_neg hp]
      rw [show List.map (fun q => if q.1 = k then (q.1, f q.2) else q) rest = dictUpd rest k f
        from rfl, ih h.2]

theorem replaceSpaceHyphen_of_not_hasSpace (s : String) (h : hasSpace s = false) :
    replaceSpaceHyphen s = s := by
  have hmem : ' ' ∉ s.data := by
    intro hc
    have hcontains : s.data.contains ' ' = true := List.elem_eq_true_of_mem hc
    rw [hasSpace] at h
    rw [h] at hcontains
    exact Bool.false_ne_true hcontains
  have hdata : s.data.map (fun c => if c = ' ' then '-' else c) = s.data := by
    calc s.data.map (fun c => if c = ' ' then '-' else c)
        = s.data.map id := by
          apply List.map_congr_left
          intro c hc
          have : ¬ c = ' ' := fun hcs => hmem (hcs ▸ hc)
          simp [this]
      _ = s.data := List.map_id s.data
  cases s with
  | mk data => exact congrArg String.mk hdata

theorem init_metrics_step (ret : List (String × CompId)) (p : String × CompId) :
    (if hasSpace p.1 then dictInsert (replaceSpaceHyphen p.1) p.2 ret
     else dictInsert p.1 p.2 ret) = dictInsert (replaceSpaceHyphen p.1) p.2 ret := by
  by_cases h : hasSpace p.1
  · simp [h]
  · simp [h, replaceSpaceHyphen_of_not_hasSpace p.1 (by simpa using h)]

theorem init_metrics_of_ne_nil (metrics : List (String × CompId)) (loss : CompId)
    (h : metrics ≠ []) :
    init_metrics metrics loss =
      metrics.foldl (fun d p => dictInsert (replaceSpaceHyphen p.1) p.2 d) [] := by
  have hlen : ¬ metrics.length = 0 := by
    intro hc
    exact h (List.length_eq_zero.mp hc)
  rw [init_metrics, if_neg hlen]
  have hstep : (fun (ret : List (String × CompId)) (p : String × CompId) =>
      if hasSpace p.1 then dictInsert (replaceSpaceHyphen p.1) p.2 ret
      else dictInsert p.1 p.2 ret) =
      fun d p => dictInsert (replaceSpaceHyphen p.1) p.2 d := by
    funext ret p
    exact init_metrics_step ret p
  rw [hstep]

/-- C6: for an empty metric mapping the registry yields exactly the one-entry
mapping binding `"loss"` to the session's loss computation. -/
theorem init_metrics_empty (loss : CompId) :
    init_metrics [] loss = [("loss", loss)] := rfl

theorem foldl_dictInsert_fresh {α : Type} (f : String → String) (l : List (String × α)) :
    ∀ (acc : List (String × α)),
      (l.map (fun p => f p.1)).Nodup →
      (∀ p ∈ l, f p.1 ∉ dictKeys acc) →
      l.foldl (fun d p => dictInsert (f p.1) p.2 d) acc =
        acc ++ l.map (fun p => (f p.1, p.2)) := by
  induction l with
  | nil => intro acc _ _; simp
  | cons p rest ih =>
      intro acc hnd hfresh
      rw [List.map_cons, List.nodup_cons] at hnd
      have hfp : f p.1 ∉ dictKeys acc := hfresh p (List.mem_cons_self p rest)
      rw [List.foldl_cons, dictInsert_of_not_mem _ _ _ hfp]
      have hfresh' : ∀ q ∈ rest, f q.1 ∉ dictKeys (acc ++ [(f p.1, p.2)]) := by
        intro q hq
        rw [dictKeys_append, List.mem_append]
        push_neg
        refine ⟨hfresh q (List.mem_cons_of_mem p hq), ?_⟩
        have : f q.1 ≠ f p.1 := by
          intro hc
          exact hnd.1 (hc ▸ List.mem_map_of_mem (fun r => f r.1) hq)
        simp [dictKeys, this]
      rw [ih (acc ++ [(f p.1, p.2)]) hnd.2 hfresh']
      simp

/-- C7: for every non-empty metric mapping whose sanitized names do not
collide, the registry rebuilds the mapping in insertion order with every key
replaced by its space-to-hyphen sanitization and the bound computation
untouched; keys without spaces are returned verbatim. -/
theorem init_metrics_sanitize (metrics : List (String × CompId)) (loss : CompId)
    (hne : metrics ≠ [])
    (hnd : (metrics.map (fun p => replaceSpaceHyphen p.1)).Nodup) :
    init_metrics metrics loss = metrics.map (fun p => (replaceSpaceHyphen p.1, p.2)) ∧
    ∀ p ∈ metrics, hasSpace p.1 = false → replaceSpaceHyphen p.1 = p.1 := by
  constructor
  · rw [init_metrics_of_ne_nil metrics loss hne]
    have := foldl_dictInsert_fresh replaceSpaceHyphen metrics [] hnd
      (by intro p _; simp [dictKeys])
    simpa using this
  · intro p _ h
    exact replaceSpaceHyphen_of_not_hasSpace p.1 h

/-- Witness for C7 at the spec's scenario: `{"cross entropy": 1, "accuracy": 2}`
sanitizes to `{"cross-entropy": 1, "accuracy": 2}`, and the space-free name
`"accuracy"` is kept verbatim. -/
theorem init_metrics_sanitize_witness :
    init_metrics [("cross entropy", 1), ("accuracy", 2)] 0 =
      [("cross-entropy", 1), ("accuracy", 2)] ∧
    replaceSpaceHyphen "accuracy" = "accuracy" := by
  have h := init_metrics_sanitize [("cross entropy", 1), ("accuracy", 2)] 0
    (by decide) (by decide)
  refine ⟨h.1.trans (by decide), ?_⟩
  exact h.2 ("accuracy", 2) (by decide) (by decide)

theorem dictGet_foldl_dictInsert {α : Type} (f : String → String) (l : List (String × α)) :
    ∀ (acc : List (String × α)) (q : String),
      dictGet (l.foldl (fun d p => dictInsert (f p.1) p.2 d) acc) q =
        ((l.reverse.find? (fun p => decide (f p.1 = q))).map Prod.snd).or (dictGet acc q) := by
  induction l with
  | nil => intro acc q; simp
  | cons p rest ih =>
      intro acc q
      rw [List.foldl_cons, ih, List.reverse_cons, List.find?_append]
      cases hfind : rest.reverse.find? (fun p => decide (f p.1 = q)) with
      | some r => simp [hfind]
      | none =>
          by_cases hq : f p.1 = q
          · subst hq
            rw [List.find?_cons_of_pos _ (by simp)]
            simp [dictGet_dictInsert_self]
          · rw [List.find?_cons_of_neg _ (by simpa using hq)]
            simp [dictGet_dictInsert_ne _ _ _ _ (fun hh => hq hh.symm)]

theorem dictKeys_foldl_dictInsert {α : Type} (f : String → String) (l : List (String × α)) :
    ∀ (acc : List (String × α)), (dictKeys acc).Nodup →
      ((dictKeys (l.foldl (fun d p => dictInsert (f p.1) p.2 d) acc)).Nodup ∧
       ∀ q, q ∈ dictKeys (l.foldl (fun d p => dictInsert (f p.1) p.2 d) acc) ↔
         q ∈ dictKeys acc ∨ q ∈ l.map (fun p => f p.1)) := by
  induction l with
  | nil => intro acc h; simp [h]
  | cons p rest ih =>
      intro acc hacc
      rw [List.foldl_cons]
      have hacc' : (dictKeys (dictInsert (f p.1) p.2 acc)).Nodup := by
        rw [dictKeys_dictInsert]
        by_cases hm : f p.1 ∈ dictKeys acc
        · rw [if_pos hm]; exact hacc
        · rw [if_neg hm]
          refine List.nodup_append.mpr ⟨hacc, List.nodup_singleton _, ?_⟩
          intro x hx hx'
          rw [List.mem_singleton] at hx'
          exact hm (hx' ▸ hx)
      obtain ⟨h1, h2⟩ := ih (dictInsert (f p.1) p.2 acc) hacc'
      refine ⟨h1, ?_⟩
      intro q
      rw [h2 q, dictKeys_dictInsert]
      by_cases hm : f p.1 ∈ dictKeys acc
      · rw [if_pos hm, List.map_cons, List.mem_cons]
        constructor
        · rintro (h | h)
          · exact Or.inl h
          · exact Or.inr (Or.inr h)
        · rintro (h | h | h)
          · exact Or.inl h
          · exact Or.inl (h ▸ hm)
          · exact Or.inr h
      · rw [if_neg hm, List.map_cons, List.mem_cons, List.mem_append, List.mem_singleton]
        constructor
        · rintro ((h | h) | h)
          · exact Or.inl h
          · exact Or.inr (Or.inl h)
          · exact Or.inr (Or.inr h)
        · rintro (h | h | h)
          · exact Or.inl (Or.inl h)
          · exact Or.inl (Or.inr h)
          · exact Or.inr h

/-- C10: when two distinct metric names collapse to the same sanitized name,
the registry silently binds the sanitized name to the computation of the later
entry in insertion order and the output has fewer entries than the input; no
error is raised (the function is total). -/
theorem init_metrics_collision (pre mid post : List (String × CompId))
    (a b : String × CompId) (loss : CompId)
    (hab : a.1 ≠ b.1)
    (hcol : replaceSpaceHyphen a.1 = replaceSpaceHyphen b.1)
    (hlast : ∀ p ∈ post, replaceSpaceHyphen p.1 ≠ replaceSpaceHyphen b.1) :
    dictGet (init_metrics (pre ++ a :: mid ++ b :: post) loss) (replaceSpaceHyphen b.1) =
      some b.2 ∧
    (init_metrics (pre ++ a :: mid ++ b :: post) loss).length <
      (pre ++ a :: mid ++ b :: post).length := by
  have hne : pre ++ a :: mid ++ b :: post ≠ [] := by
    intro hc
    have := congrArg List.length hc
    simp [List.length_append] at this
  rw [init_metrics_of_ne_nil _ _ hne]
  constructor
  · rw [dictGet_foldl_dictInsert]
    have hrev : (pre ++ a :: mid ++ b :: post).reverse =
        post.reverse ++ (b :: (mid.reverse ++ (a :: pre.reverse))) := by
      simp [List.reverse_append, List.append_assoc]
    rw [hrev, List.find?_append]
    have hpost : post.reverse.find?
        (fun p => decide (replaceSpaceHyphen p.1 = replaceSpaceHyphen b.1)) = none := by
      rw [List.find?_eq_none]
      intro x hx
      simp only [decide_eq_true_eq]
      exact hlast x (List.mem_reverse.mp hx)
    rw [hpost, List.find?_cons_of_pos _ (by simp)]
    simp [dictGet]
  · obtain ⟨hknd, hkmem⟩ := dictKeys_foldl_dictInsert replaceSpaceHyphen
      (pre ++ a :: mid ++ b :: post) [] (by simp [dictKeys])
    have hmemiff : ∀ q,
        q ∈ dictKeys ((pre ++ a :: mid ++ b :: post).foldl
          (fun d p => dictInsert (replaceSpaceHyphen p.1) p.2 d) []) ↔
        q ∈ (pre ++ a :: mid ++ b :: post).map (fun p => replaceSpaceHyphen p.1) := by
      intro q
      rw [hkmem q]
      simp [dictKeys]
    have hdup : ¬ ((pre ++ a :: mid ++ b :: post).map
        (fun p => replaceSpaceHyphen p.1)).Nodup := by
      intro hnod
      rw [List.nodup_iff_count_le_one] at hnod
      have h2 := hnod (replaceSpaceHyphen b.1)
      simp [List.count_append, List.count_cons, hcol] at h2
      omega
    have hlt : ((pre ++ a :: mid ++ b :: post).map
          (fun p => replaceSpaceHyphen p.1)).dedup.length <
        ((pre ++ a :: mid ++ b :: post).map (fun p => replaceSpaceHyphen p.1)).length := by
      have hle := (List.dedup_sublist ((pre ++ a :: mid ++ b :: post).map
        (fun p => replaceSpaceHyphen p.1))).length_le
      rcases lt_or_eq_of_le hle with h | h
      · exact h
      · exfalso
        have heq := (List.dedup_sublist _).eq_of_length h
        exact hdup (heq ▸ List.nodup_dedup _)
    have htof : (dictKeys ((pre ++ a :: mid ++ b :: post).foldl
          (fun d p => dictInsert (replaceSpaceHyphen p.1) p.2 d) [])).toFinset =
        ((pre ++ a :: mid ++ b :: post).map (fun p => replaceSpaceHyphen p.1)).toFinset := by
      ext q
      simp only [List.mem_toFinset]
      exact hmemiff q
    calc ((pre ++ a :: mid ++ b :: post).foldl
            (fun d p => dictInsert (replaceSpaceHyphen p.1) p.2 d) []).length
        = (dictKeys ((pre ++ a :: mid ++ b :: post).foldl
            (fun d p => dictInsert (replaceSpaceHyphen p.1) p.2 d) [])).length :=
          (List.length_map _ _).symm
      _ = (dictKeys ((pre ++ a :: mid ++ b :: post).foldl
            (fun d p => dictInsert (replaceSpaceHyphen p.1) p.2 d) [])).dedup.length := by
          rw [hknd.dedup]
      _ = (dictKeys ((pre ++ a :: mid ++ b :: post).foldl
            (fun d p => dictInsert (replaceSpaceHyphen p.1) p.2 d) [])).toFinset.card :=
          (List.card_toFinset _).symm
      _ = ((pre ++ a :: mid ++ b :: post).map
            (fun p => replaceSpaceHyphen p.1)).toFinset.card := by rw [htof]
      _ = ((pre ++ a :: mid ++ b :: post).map
            (fun p => replaceSpaceHyphen p.1)).dedup.length := List.card_toFinset _
      _ < ((pre ++ a :: mid ++ b :: post).map
            (fun p => replaceSpaceHyphen p.1)).length := hlt
      _ = (pre ++ a :: mid ++ b :: post).length := List.length_map _ _

/-- Witness for C10 at the example of the claim: the mapping
`{"a b": 1, "a-b": 2}` collapses to the single entry `{"a-b": 2}`. -/
theorem init_metrics_collision_witness :
    dictGet (init_metrics ([] ++ ("a b", 1) :: [] ++ ("a-b", 2) :: []) 0)
        (replaceSpaceHyphen "a-b") = some 2 ∧
    (init_metrics ([] ++ ("a b", 1) :: [] ++ ("a-b", 2) :: []) 0).length <
      ([] ++ ("a b", 1) :: [] ++ ("a-b", 2) :: []).length :=
  init_metrics_collision [] [] [] ("a b", 1) ("a-b", 2) 0
    (by decide) (by decide) (by simp)

theorem mapM_ok {α β : Type} (f : α → Except String β) (g : α → β) (l : List α)
    (h : ∀ x ∈ l, f x = .ok (g x)) : l.mapM f = .ok (l.map g) := by
  induction l with
  | nil => rfl
  | cons x rest ih =>
      rw [List.mapM_cons, h x (List.mem_cons_self x rest),
        ih (fun y hy => h y (List.mem_cons_of_mem x hy))]
      rfl

theorem with_padding_one_post (m : Nat) (seq : List Int) :
    with_padding_one m "post" seq =
      .ok (seq.take m ++ List.replicate (m - seq.length) 0) := by
  simp [with_padding_one, List.length_take]
  omega

theorem with_padding_one_pre (m : Nat) (seq : List Int) :
    with_padding_one m "pre" seq =
      .ok (List.replicate (m - seq.length) 0 ++ seq.take m) := by
  simp [with_padding_one, List.length_take]
  omega

theorem with_padding_one_bad (m : Nat) (padding_type : String) (seq : List Int)
    (h1 : padding_type ≠ "post") (h2 : padding_type ≠ "pre") :
    with_padding_one m padding_type seq =
      .error "padding type error. padding type must be post or pre" := by
  simp [with_padding_one, h1, h2]

theorem toInt32_eq_of_mem_range (x : Int) (h1 : -2147483648 ≤ x)
    (h2 : x < 2147483648) : toInt32 x = x := by
  simp only [toInt32]
  split <;> omega

/-- C8 (amended): for a positive `max_sequence_length = m`, `with_padding`
truncates every sequence to its first `m` elements and pads shorter sequences
with zeros, appended for `"post"` and prepended for `"pre"`, with every
element wrapped into 32-bit signed range by the `np.array(..., dtype=np.int32)`
materialization (elements already in int32 range, such as all the spec's
scenarios, are preserved exactly); for any other padding type the call raises
provided at least one sequence is present (with an empty sequence list the
inner closure never runs, so no error). -/
theorem with_padding_spec (sequences : List (List Int)) (m : Int) (hm : 0 < m) :
    with_padding sequences "post" (some m) =
      .ok (sequences.map (fun s =>
        (s.take m.toNat ++ List.replicate (m.toNat - s.length) 0).map toInt32)) ∧
    with_padding sequences "pre" (some m) =
      .ok (sequences.map (fun s =>
        (List.replicate (m.toNat - s.length) 0 ++ s.take m.toNat).map toInt32)) ∧
    (∀ x : Int, -2147483648 ≤ x → x < 2147483648 → toInt32 x = x) ∧
    ∀ padding_type : String, padding_type ≠ "post" → padding_type ≠ "pre" →
      sequences ≠ [] →
      with_padding sequences padding_type (some m) =
        .error "padding type error. padding type must be post or pre" := by
  have hnot : ¬ m ≤ 0 := not_le.mpr hm
  refine ⟨?_, ?_, toInt32_eq_of_mem_range, ?_⟩
  · rw [with_padding, if_neg hnot]
    rw [mapM_ok _ _ _ (fun s _ => with_padding_one_post m.toNat s)]
    dsimp only
    rw [List.map_map]
    rfl
  · rw [with_padding, if_neg hnot]
    rw [mapM_ok _ _ _ (fun s _ => with_padding_one_pre m.toNat s)]
    dsimp only
    rw [List.map_map]
    rfl
  · intro padding_type h1 h2 hnil
    rw [with_padding, if_neg hnot]
    cases sequences with
    | nil => exact absurd rfl hnil
    | cons s rest =>
        rw [List.mapM_cons, with_padding_one_bad m.toNat padding_type s h1 h2]
        rfl

/-- Witness for C8 at the spec's scenarios: `[1,2]` padded post to length 3 is
`[1,2,0]`, `[1,2,3,4]` truncates to `[1,2,3]`, `[1,2]` padded pre is
`[0,1,2]`, and an unsupported padding type on a non-empty list raises. -/
theorem with_padding_spec_witness :
    with_padding [[1, 2], [1, 2, 3, 4]] "post" (some 3) = .ok [[1, 2, 0], [1, 2, 3]] ∧
    with_padding [[1, 2]] "pre" (some 3) = .ok [[0, 1, 2]] ∧
    with_padding [[1, 2]] "bogus" (some 3) =
      .error "padding type error. padding type must be post or pre" := by
  refine ⟨?_, ?_, ?_⟩
  · exact (with_padding_spec [[1, 2], [1, 2, 3, 4]] 3 (by decide)).1.trans (by rfl)
  · exact (with_padding_spec [[1, 2]] 3 (by decide)).2.1.trans (by rfl)
  · exact (with_padding_spec [[1, 2]] 3 (by decide)).2.2.2 "bogus"
      (by decide) (by decide) (by decide)

/-- Counterexample for C8 as stated: with an empty sequence list and an
unsupported padding type, `with_padding` raises no error at call time — the
inner closure is never applied, and the call returns an empty result. -/
theorem with_padding_empty_bad_type_no_error :
    with_padding [] "bogus" (some 3) = .ok [] := rfl

theorem appendRight_injective (s : String) :
    Function.Injective (fun a : String => a ++ s) := by
  intro a b h
  have hd : (a ++ s).data = (b ++ s).data := congrArg String.data h
  rw [String.data_append, String.data_append] at hd
  have hab : a.data = b.data := List.append_cancel_right hd
  cases a with
  | mk da =>
      cases b with
      | mk db => exact congrArg String.mk hab

theorem foldl_dictInsert_fresh_map {α β : Type} (f : String → String)
    (g : (String × α) → β) (l : List (String × α)) :
    ∀ (acc : List (String × β)),
      (l.map (fun p => f p.1)).Nodup →
      (∀ p ∈ l, f p.1 ∉ dictKeys acc) →
      l.foldl (fun d p => dictInsert (f p.1) (g p) d) acc =
        acc ++ l.map (fun p => (f p.1, g p)) := by
  induction l with
  | nil => intro acc _ _; simp
  | cons p rest ih =>
      intro acc hnd hfresh
      rw [List.map_cons, List.nodup_cons] at hnd
      have hfp : f p.1 ∉ dictKeys acc := hfresh p (List.mem_cons_self p rest)
      rw [List.foldl_cons, dictInsert_of_not_mem _ _ _ hfp]
      have hfresh' : ∀ q ∈ rest, f q.1 ∉ dictKeys (acc ++ [(f p.1, g p)]) := by
        intro q hq
        rw [dictKeys_append, List.mem_append]
        push_neg
        refine ⟨hfresh q (List.mem_cons_of_mem p hq), ?_⟩
        have hne : f q.1 ≠ f p.1 := by
          intro hc
          exact hnd.1 (hc ▸ List.mem_map_of_mem (fun r => f r.1) hq)
        simp [dictKeys, hne]
      rw [ih (acc ++ [(f p.1, g p)]) hnd.2 hfresh']
      simp

theorem metricsLogger_step (w : (String × CompId) → ℚ) (ms : List (String × CompId)) :
    ∀ (pre : List (String × List ℚ)) (g : (String × CompId) → List ℚ),
      (∀ q ∈ pre, q.1 ∉ ms.map Prod.fst) →
      (ms.map Prod.fst).Nodup →
      ms.foldl (fun lg p => dictUpd lg p.1 (fun l => l ++ [w p]))
        (pre ++ ms.map (fun p => (p.1, g p))) =
      pre ++ ms.map (fun p => (p.1, g p ++ [w p])) := by
  induction ms with
  | nil => intro pre g _ _; simp
  | cons p rest ih =>
      intro pre g hpre hnd
      rw [List.map_cons, List.nodup_cons] at hnd
      rw [List.map_cons, List.foldl_cons]
      have hpreKeys : p.1 ∉ dictKeys pre := by
        intro hc
        obtain ⟨q, hq, hq1⟩ := List.mem_map.mp hc
        exact hpre q hq (hq1 ▸ List.mem_cons_self _ _)
      have hrestKeys : p.1 ∉ dictKeys (rest.map (fun q => (q.1, g q))) := by
        intro hc
        obtain ⟨q, hq, hq1⟩ := List.mem_map.mp hc
        obtain ⟨r, hr, hr1⟩ := List.mem_map.mp hq
        apply hnd.1
        rw [← hr1] at hq1
        exact hq1 ▸ List.mem_map_of_mem Prod.fst hr
      have hstep : dictUpd (pre ++ (p.1, g p) :: rest.map (fun q => (q.1, g q))) p.1
          (fun l => l ++ [w p]) =
          pre ++ (p.1, g p ++ [w p]) :: rest.map (fun q => (q.1, g q)) := by
        simp only [dictUpd, List.map_append, List.map_cons]
        rw [show List.map (fun q => if q.1 = p.1 then (q.1, q.2 ++ [w p]) else q) pre
            = dictUpd pre p.1 (fun l => l ++ [w p]) from rfl]
        rw [dictUpd_of_not_mem pre p.1 _ hpreKeys]
        rw [show List.map (fun q => if q.1 = p.1 then (q.1, q.2 ++ [w p]) else q)
              (rest.map (fun q => (q.1, g q)))
            = dictUpd (rest.map (fun q => (q.1, g q))) p.1 (fun l => l ++ [w p]) from rfl]
        rw [dictUpd_of_not_mem _ p.1 _ hrestKeys]
        simp
      rw [hstep]
      have hre : pre ++ (p.1, g p ++ [w p]) :: rest.map (fun q => (q.1, g q)) =
          (pre ++ [(p.1, g p ++ [w p])]) ++ rest.map (fun q => (q.1, g q)) := by
        simp
      rw [hre]
      have hpre' : ∀ q ∈ pre ++ [(p.1, g p ++ [w p])], q.1 ∉ rest.map Prod.fst := by
        intro q hq
        rcases List.mem_append.mp hq with hq | hq
        · intro hc
          exact hpre q hq (List.mem_cons_of_mem _ hc)
        · rw [List.mem_singleton] at hq
          rw [hq]
          exact hnd.1
      rw [ih (pre ++ [(p.1, g p ++ [w p])]) g hpre' hnd.2]
      simp

theorem epochLoop_fold (metrics : List (String × CompId)) (loss : CompId)
    (v : Nat → CompId → ℚ) (train : Bool) (n : Nat) :
    ∀ (acc : List (String × List ℚ) × List Event),
      (List.range n).foldl (epochBatch metrics loss v train) acc =
        ((List.range n).foldl (fun lg i => metrics.foldl
            (fun lg' p => dictUpd lg' p.1 (fun l => l ++ [v i p.2])) lg) acc.1,
         acc.2 ++ (List.range n).flatMap (fun _ => batchEvents metrics loss train)) := by
  induction n with
  | zero => intro acc; simp
  | succ n ih =>
      intro acc
      rw [List.range_succ, List.foldl_append, List.foldl_cons, List.foldl_nil, ih acc]
      rw [List.foldl_append, List.foldl_cons, List.foldl_nil]
      rw [List.flatMap_append]
      simp [epochBatch]

theorem metricsLogger_loop (metrics : List (String × CompId)) (v : Nat → CompId → ℚ)
    (hnd : (metrics.map Prod.fst).Nodup) (n : Nat) :
    (List.range n).foldl (fun lg i => metrics.foldl
        (fun lg' p => dictUpd lg' p.1 (fun l => l ++ [v i p.2])) lg)
      (metrics.map (fun p => (p.1, ([] : List ℚ)))) =
    metrics.map (fun p => (p.1, (List.range n).map (fun i => v i p.2))) := by
  induction n with
  | zero => simp
  | succ n ih =>
      rw [List.range_succ, List.foldl_append, List.foldl_cons, List.foldl_nil, ih]
      have h := metricsLogger_step (fun p => v n p.2) metrics []
        (fun p => (List.range n).map (fun i => v i p.2)) (by simp) hnd
      simp only [List.nil_append] at h
      rw [h]
      have : ∀ p : String × CompId,
          (List.range n).map (fun i => v i p.2) ++ [v n p.2] =
          (List.range (n + 1)).map (fun i => v i p.2) := by
        intro p
        rw [List.range_succ, List.map_append, List.map_cons, List.map_nil]
      simp only [this]
      rw [List.range_succ]

/-- C1: for every epoch run by `_run_one_epoch` (train or valid) with
distinct metric keys, the returned EpochResult is exactly the registered
mapping with each key suffixed by the phase (`-train` or `-valid` according
to the `train` flag) and bound to the arithmetic mean of that epoch's
per-batch recorded values of that metric; the result depends only on the
values recorded during the epoch itself (the per-batch oracle), not on any
earlier epoch. -/
theorem run_one_epoch_result (metrics : List (String × CompId)) (loss : CompId)
    (v : Nat → CompId → ℚ) (num_batch : Nat) (epoch : Int) (train show_epoch : Bool)
    (hnd : (metrics.map Prod.fst).Nodup) :
    (run_one_epoch metrics loss v num_batch epoch train show_epoch).1 =
      metrics.map (fun p => (p.1 ++ "-" ++ phaseName train,
        ((List.range num_batch).map (fun i => v i p.2)).sum / (num_batch : ℚ))) := by
  simp only [run_one_epoch]
  rw [epochLoop_fold]
  simp only
  rw [metricsLogger_loop metrics v hnd num_batch]
  have hinj : Function.Injective (fun a : String => a ++ "-" ++ phaseName train) := by
    intro a b h
    exact appendRight_injective "-" (appendRight_injective (phaseName train) h)
  have hnd2 : ((metrics.map (fun p => (p.1, (List.range num_batch).map (fun i => v i p.2)))).map
      (fun q => q.1 ++ "-" ++ phaseName train)).Nodup := by
    rw [List.map_map]
    have : (fun q : String × List ℚ => q.1 ++ "-" ++ phaseName train) ∘
        (fun p : String × CompId => (p.1, (List.range num_batch).map (fun i => v i p.2))) =
        (fun a => a ++ "-" ++ phaseName train) ∘ Prod.fst := rfl
    rw [this, ← List.map_map]
    exact hnd.map hinj
  have h := foldl_dictInsert_fresh_map (fun a => a ++ "-" ++ phaseName train)
    (fun q => npMean q.2)
    (metrics.map (fun p => (p.1, (List.range num_batch).map (fun i => v i p.2)))) []
    hnd2 (by intro p _; simp [dictKeys])
  simp only [List.nil_append] at h
  rw [h, List.map_map]
  apply List.map_congr_left
  intro p _
  simp only [Function.comp]
  congr 1
  rw [npMean, List.length_map, List.length_range]

/-- Witness for C1 at the spec's scenario: batch size 2, 4 total examples
(`4 / 2 = 2` batches), a single metric `"loss"` whose value is `1` on every
batch; the training EpochResult is exactly `{"loss-train": 1}`. -/
theorem run_one_epoch_result_witness :
    (run_one_epoch [("loss", 0)] 0 (fun _ _ => 1) (4 / 2) 0 true true).1 =
      [("loss-train", (1 : ℚ))] := by
  have h := run_one_epoch_result [("loss", 0)] 0 (fun _ _ => 1) (4 / 2) 0 true true
    (by decide)
  rw [h]
  have hs : ("loss" : String) ++ "-" ++ phaseName true = "loss-train" := rfl
  simp only [List.map_cons, List.map_nil, hs]
  norm_num [List.range_succ]

/-- C3: every training batch of `_run_one_epoch` performs, in order: pull the
batch, run `forward` on every registered metric, then run `forward` on the
loss exactly when the loss is not among the registered metric computations
(no redundant evaluation otherwise), then `zero_grad`, `backward` on the
loss, and `update`; the trace of a training epoch is exactly this batch trace
repeated for every batch. -/
theorem batchEvents_train (metrics : List (String × CompId)) (loss : CompId)
    (v : Nat → CompId → ℚ) (num_batch : Nat) (epoch : Int) (show_epoch : Bool) :
    batchEvents metrics loss true =
      Event.nextBatch ::
        (metrics.map (fun p => Event.forward p.2) ++
          ((if loss ∈ metrics.map Prod.snd then [] else [Event.forward loss]) ++
            [Event.zeroGrad, Event.backward loss, Event.update])) ∧
    (run_one_epoch metrics loss v num_batch epoch true show_epoch).2 =
      Event.epochStart epoch true show_epoch ::
        (List.range num_batch).flatMap (fun _ => batchEvents metrics loss true) := by
  refine ⟨?_, ?_⟩
  on_goal 2 =>
    simp only [run_one_epoch]
    rw [epochLoop_fold]
    simp
  have hflag : ∀ (ms : List (String × CompId)) (acc : Bool),
      ms.foldl (fun a p => if p.2 = loss then false else a) acc =
        (acc && !(ms.map Prod.snd).contains loss) := by
    intro ms
    induction ms with
    | nil => intro acc; simp
    | cons p rest ih =>
        intro acc
        rw [List.foldl_cons, ih]
        by_cases h : p.2 = loss
        · simp [h]
        · have hbeq : (loss == p.2) = false := beq_eq_false_iff_ne.mpr (Ne.symm h)
          simp [h, hbeq]
  rw [batchEvents, lossForwardFlag, hflag]
  by_cases hmem : loss ∈ metrics.map Prod.snd
  · have : (metrics.map Prod.snd).contains loss = true := List.elem_eq_true_of_mem hmem
    simp [this, hmem]
  · have : (metrics.map Prod.snd).contains loss = false := by
      rw [List.contains_eq_any_beq]
      rw [List.any_eq_false]
      intro x hx
      simp only [beq_iff_eq]
      intro hc
      exact hmem (hc ▸ hx)
    simp [this, hmem]

theorem dictGet_addSeries_self (store : List (String × List (Int × ℚ))) (k : String)
    (idx : Int) (value : ℚ) :
    dictGet (addSeries store k idx value) k =
      some ((dictGet store k).getD [] ++ [(idx, value)]) := by
  simp only [addSeries]
  by_cases hm : k ∈ dictKeys store
  · rw [if_pos hm, dictGet_dictUpd_self]
    cases hget : dictGet store k with
    | none => exact absurd hm ((dictGet_eq_none_iff store k).mp hget)
    | some l => simp
  · rw [if_neg hm, dictGet_dictUpd_self, dictGet_append]
    have hnone : dictGet store k = none := (dictGet_eq_none_iff store k).mpr hm
    simp [hnone, dictGet]

theorem dictGet_addSeries_ne (store : List (String × List (Int × ℚ))) (k q : String)
    (idx : Int) (value : ℚ) (h : q ≠ k) :
    dictGet (addSeries store k idx value) q = dictGet store q := by
  simp only [addSeries]
  by_cases hm : k ∈ dictKeys store
  · rw [if_pos hm, dictGet_dictUpd_ne _ _ _ _ h]
  · rw [if_neg hm, dictGet_dictUpd_ne _ _ _ _ h, dictGet_append]
    have : ¬ k = q := fun hh => h hh.symm
    simp [dictGet, this]

theorem saveResult_fold_frame (ev : Bool) (r : List (String × ℚ)) :
    ∀ (s : TrainerState) (evs : List Event),
      ((r.foldl (saveResultStep ev) (s, evs)).1.current_epoch = s.current_epoch ∧
       (r.foldl (saveResultStep ev) (s, evs)).1.metrics = s.metrics ∧
       (r.foldl (saveResultStep ev) (s, evs)).1.loss = s.loss ∧
       (r.foldl (saveResultStep ev) (s, evs)).1.inputs = s.inputs) ∧
      (r.foldl (saveResultStep ev) (s, evs)).2 =
        evs ++ r.map (fun p => Event.logResult p.1
          (if ev then s.current_epoch else s.current_epoch + 1) p.2) := by
  induction r with
  | nil => intro s evs; exact ⟨⟨rfl, rfl, rfl, rfl⟩, by simp⟩
  | cons p rest ih =>
      intro s evs
      rw [List.foldl_cons]
      have hstep : saveResultStep ev (s, evs) p =
          (TrainerState.mk s.inputs s.loss s.metrics
            (addSeries s.monitor_series p.1
              (if ev then s.current_epoch else s.current_epoch + 1) p.2)
            s.current_epoch,
           evs ++ [Event.logResult p.1
              (if ev then s.current_epoch else s.current_epoch + 1) p.2]) := rfl
      rw [hstep]
      obtain ⟨hf, he⟩ := ih _ _
      refine ⟨⟨hf.1, hf.2.1, hf.2.2.1, hf.2.2.2⟩, ?_⟩
      rw [he]
      simp

theorem saveResult_fold_store (ev : Bool) (r : List (String × ℚ)) :
    ∀ (s : TrainerState) (evs : List Event),
      (r.map Prod.fst).Nodup →
      (∀ kv ∈ r, dictGet (r.foldl (saveResultStep ev) (s, evs)).1.monitor_series kv.1 =
        some ((dictGet s.monitor_series kv.1).getD [] ++
          [((if ev then s.current_epoch else s.current_epoch + 1), kv.2)])) ∧
      (∀ k, k ∉ r.map Prod.fst →
        dictGet (r.foldl (saveResultStep ev) (s, evs)).1.monitor_series k =
          dictGet s.monitor_series k) := by
  induction r with
  | nil =>
      intro s evs _
      exact ⟨fun kv hkv => absurd hkv (List.not_mem_nil kv), fun k _ => rfl⟩
  | cons p rest ih =>
      intro s evs hnd
      rw [List.map_cons, List.nodup_cons] at hnd
      rw [List.foldl_cons]
      have hstep : saveResultStep ev (s, evs) p =
          (TrainerState.mk s.inputs s.loss s.metrics
            (addSeries s.monitor_series p.1
              (if ev then s.current_epoch else s.current_epoch + 1) p.2)
            s.current_epoch,
           evs ++ [Event.logResult p.1
              (if ev then s.current_epoch else s.current_epoch + 1) p.2]) := rfl
      rw [hstep]
      obtain ⟨hin, hout⟩ := ih _ _ hnd.2
      constructor
      · intro kv hkv
        rcases List.mem_cons.mp hkv with hkv | hkv
        · subst hkv
          rw [hout kv.1 hnd.1]
          exact dictGet_addSeries_self s.monitor_series kv.1 _ kv.2
        · have hne : kv.1 ≠ p.1 := by
            intro hc
            exact hnd.1 (hc ▸ List.mem_map_of_mem Prod.fst hkv)
          rw [hin kv hkv, dictGet_addSeries_ne _ _ _ _ _ hne]
      · intro k hk
        rw [List.map_cons, List.mem_cons] at hk
        push_neg at hk
        rw [hout k hk.2, dictGet_addSeries_ne _ _ _ _ _ hk.1]

/-- C5: `save_result` appends each entry of the EpochResult to the series
store under its metric-phase key, indexed by `current_epoch + 1` for a
trained epoch and by `current_epoch` for a standalone evaluation; a series
key is created on first appearance, later entries are appended at the end
(never overwritten), keys outside the result are untouched, and the epoch
counter is unchanged. -/
theorem save_result_spec (st : TrainerState) (result : List (String × ℚ)) (ev : Bool)
    (hnd : (result.map Prod.fst).Nodup) :
    (∀ kv ∈ result, dictGet (save_result st result ev).1.monitor_series kv.1 =
      some ((dictGet st.monitor_series kv.1).getD [] ++
        [((if ev then st.current_epoch else st.current_epoch + 1), kv.2)])) ∧
    (∀ k, k ∉ result.map Prod.fst →
      dictGet (save_result st result ev).1.monitor_series k =
        dictGet st.monitor_series k) ∧
    (save_result st result ev).1.current_epoch = st.current_epoch := by
  obtain ⟨hin, hout⟩ := saveResult_fold_store ev result st [] hnd
  exact ⟨hin, hout, ((saveResult_fold_frame ev result st []).1).1⟩

/-- Witness for C5: logging `{"loss-train": 1}` as a trained epoch with empty
store and `current_epoch = 0` creates the series and appends `(1, 1)`, while
an absent key is untouched and the epoch counter is unchanged. -/
theorem save_result_spec_witness :
    dictGet (save_result ⟨[[2]], 0, [("loss", 0)], [], 0⟩ [("loss-train", 1)] false).1.monitor_series
        "loss-train" = some [((1 : Int), (1 : ℚ))] ∧
    dictGet (save_result ⟨[[2]], 0, [("loss", 0)], [], 0⟩ [("loss-train", 1)] false).1.monitor_series
        "loss-valid" = none ∧
    (save_result ⟨[[2]], 0, [("loss", 0)], [], 0⟩ [("loss-train", 1)] false).1.current_epoch = 0 := by
  have h := save_result_spec ⟨[[2]], 0, [("loss", 0)], [], 0⟩ [("loss-train", 1)] false
    (by decide)
  refine ⟨?_, ?_, h.2.2⟩
  · have h1 := h.1 ("loss-train", 1) (List.mem_singleton.mpr rfl)
    rw [h1]
    rfl
  · have h2 := h.2.1 "loss-valid" (by decide)
    rw [h2]
    rfl

theorem run_one_epoch_events_eq (metrics : List (String × CompId)) (loss : CompId)
    (v : Nat → CompId → ℚ) (num_batch : Nat) (epoch : Int) (train show_epoch : Bool) :
    (run_one_epoch metrics loss v num_batch epoch train show_epoch).2 =
      Event.epochStart epoch train show_epoch ::
        (List.range num_batch).flatMap (fun _ => batchEvents metrics loss train) := by
  simp only [run_one_epoch]
  rw [epochLoop_fold]
  simp

theorem batchEvents_shape (metrics : List (String × CompId)) (loss : CompId) (train : Bool) :
    ∀ e ∈ batchEvents metrics loss train,
      e = Event.nextBatch ∨ (∃ c, e = Event.forward c) ∨ e = Event.zeroGrad ∨
      (∃ c, e = Event.backward c) ∨ e = Event.update := by
  intro e he
  simp only [batchEvents, List.mem_cons, List.mem_append] at he
  rcases he with he | he | he
  · exact Or.inl he
  · obtain ⟨q, _, hq⟩ := List.mem_map.mp he
    exact Or.inr (Or.inl ⟨q.2, hq.symm⟩)
  · cases train with
    | false => simp at he
    | true =>
        rw [if_pos rfl, List.mem_append] at he
        rcases he with he | he
        · by_cases hf : lossForwardFlag metrics loss
          · rw [if_pos hf, List.mem_singleton] at he
            exact Or.inr (Or.inl ⟨loss, he⟩)
          · rw [if_neg hf] at he
            simp at he
        · rcases List.mem_cons.mp he with he | he
          · exact Or.inr (Or.inr (Or.inl he))
          · rcases List.mem_cons.mp he with he | he
            · exact Or.inr (Or.inr (Or.inr (Or.inl ⟨loss, he⟩)))
            · rw [List.mem_singleton] at he
              exact Or.inr (Or.inr (Or.inr (Or.inr he)))

theorem countP_batchEvents_zero (P : Event → Bool)
    (h1 : P Event.nextBatch = false) (h2 : ∀ c, P (Event.forward c) = false)
    (h3 : P Event.zeroGrad = false) (h4 : ∀ c, P (Event.backward c) = false)
    (h5 : P Event.update = false) (metrics : List (String × CompId)) (loss : CompId)
    (train : Bool) :
    (batchEvents metrics loss train).countP P = 0 := by
  rw [List.countP_eq_zero]
  intro e he
  rcases batchEvents_shape metrics loss train e he with h | ⟨c, h⟩ | h | ⟨c, h⟩ | h <;>
    subst h <;> simp [h1, h2, h3, h4, h5]

theorem countP_flatMap_const {α : Type} (P : Event → Bool) (l : List α)
    (f : α → List Event) (c : Nat) (h : ∀ x ∈ l, (f x).countP P = c) :
    (l.flatMap f).countP P = l.length * c := by
  induction l with
  | nil => simp
  | cons x rest ih =>
      rw [List.flatMap_cons, List.countP_append, h x (List.mem_cons_self x rest),
        ih (fun y hy => h y (List.mem_cons_of_mem x hy)), List.length_cons]
      ring

theorem countP_map_forward (P : Event → Bool) (h : ∀ c, P (Event.forward c) = false)
    (metrics : List (String × CompId)) :
    (metrics.map (fun p => Event.forward p.2)).countP P = 0 := by
  rw [List.countP_eq_zero]
  intro e he
  obtain ⟨q, _, hq⟩ := List.mem_map.mp he
  rw [← hq]
  simp [h]

theorem countP_update_batchEvents_train (metrics : List (String × CompId)) (loss : CompId) :
    (batchEvents metrics loss true).countP Event.isUpdate = 1 := by
  have hmap := countP_map_forward Event.isUpdate (fun c => rfl) metrics
  by_cases hf : lossForwardFlag metrics loss
  · simp [batchEvents, hf, List.countP_cons, List.countP_append, hmap, Event.isUpdate]
  · simp [batchEvents, hf, List.countP_cons, List.countP_append, hmap, Event.isUpdate]

theorem batchEvents_valid_shape (metrics : List (String × CompId)) (loss : CompId) :
    ∀ e ∈ batchEvents metrics loss false,
      e = Event.nextBatch ∨ (∃ c, e = Event.forward c) := by
  intro e he
  simp only [batchEvents, if_neg Bool.false_ne_true, List.append_nil, List.mem_cons] at he
  rcases he with he | he
  · exact Or.inl he
  · obtain ⟨q, _, hq⟩ := List.mem_map.mp he
    exact Or.inr ⟨q.2, hq.symm⟩

theorem countP_batchEvents_valid_zero (P : Event → Bool)
    (h1 : P Event.nextBatch = false) (h2 : ∀ c, P (Event.forward c) = false)
    (metrics : List (String × CompId)) (loss : CompId) :
    (batchEvents metrics loss false).countP P = 0 := by
  rw [List.countP_eq_zero]
  intro e he
  rcases batchEvents_valid_shape metrics loss e he with h | ⟨c, h⟩ <;>
    subst h <;> simp [h1, h2]

theorem countP_update_batchEvents_valid (metrics : List (String × CompId)) (loss : CompId) :
    (batchEvents metrics loss false).countP Event.isUpdate = 0 :=
  countP_batchEvents_valid_zero Event.isUpdate rfl (fun _ => rfl) metrics loss

theorem save_result_eq_foldl (st : TrainerState) (r : List (String × ℚ)) (ev : Bool) :
    save_result st r ev = r.foldl (saveResultStep ev) (st, []) := rfl

theorem countP_map_logResult (P : Event → Bool)
    (h : ∀ k i vq, P (Event.logResult k i vq) = false)
    (r : List (String × ℚ)) (idx : Int) :
    (r.map (fun p => Event.logResult p.1 idx p.2)).countP P = 0 := by
  rw [List.countP_eq_zero]
  intro e he
  obtain ⟨q, _, hq⟩ := List.mem_map.mp he
  rw [← hq]
  simp [h]

/-- C9: a successful `Trainer.evaluate` runs exactly one validation epoch
(train flag false, epoch indicator suppressed) against epoch index
`current_epoch - 1`, logs every result entry with index `current_epoch` (the
standalone-evaluation rule), re-renders the plots, writes no checkpoint, and
leaves `current_epoch` unchanged. -/
theorem evaluate_spec (st : TrainerState) (vOracle : Nat → CompId → ℚ) (vi : DataIterator)
    (b : Nat) (ds : List Nat) (shapes : List (List Nat))
    (hins : st.inputs = (b :: ds) :: shapes)
    (hvars : vi.vars = st.inputs.length)
    (hbs : vi.batch_size = b) :
    ∃ p : TrainerState × List Event,
      Trainer.evaluate st vOracle vi = .ok p ∧
      p.1.current_epoch = st.current_epoch ∧
      p.2.countP Event.isEpochStart = 1 ∧
      Event.epochStart (st.current_epoch - 1) false false ∈ p.2 ∧
      p.2.countP Event.isSnapshot = 0 ∧
      (∀ k i vq, Event.logResult k i vq ∈ p.2 → i = st.current_epoch) ∧
      Event.saveFig ∈ p.2 := by
  obtain ⟨ins, L, ms, store, ce⟩ := st
  dsimp only at hins hvars hbs ⊢
  subst hins
  have hne1 : ¬ vi.vars ≠ ((b :: ds) :: shapes).length := fun hc => hc hvars
  have hne2 : ¬ vi.batch_size ≠ b := fun hc => hc hbs
  have heval : Trainer.evaluate ⟨(b :: ds) :: shapes, L, ms, store, ce⟩ vOracle vi =
      .ok ((save_result ⟨(b :: ds) :: shapes, L, ms, store, ce⟩
              (run_one_epoch ms L vOracle (vi.size / b) (ce - 1) false false).1 true).1,
           (run_one_epoch ms L vOracle (vi.size / b) (ce - 1) false false).2 ++
           (save_result ⟨(b :: ds) :: shapes, L, ms, store, ce⟩
              (run_one_epoch ms L vOracle (vi.size / b) (ce - 1) false false).1 true).2 ++
           [Event.saveFig]) := by
    simp only [Trainer.evaluate]
    rw [if_neg hne1, if_neg hne2]
  refine ⟨_, heval, ?_, ?_, ?_, ?_, ?_, ?_⟩
  · rw [save_result_eq_foldl]
    exact ((saveResult_fold_frame true _ _ []).1).1
  · dsimp only
    rw [List.countP_append, List.countP_append]
    rw [run_one_epoch_events_eq, List.countP_cons]
    rw [countP_flatMap_const Event.isEpochStart _ _ 0
      (fun x _ => countP_batchEvents_valid_zero Event.isEpochStart rfl (fun _ => rfl) ms L)]
    rw [save_result_eq_foldl, (saveResult_fold_frame true _ _ []).2]
    rw [List.nil_append,
      countP_map_logResult Event.isEpochStart (fun _ _ _ => rfl) _ _]
    rfl
  · dsimp only
    rw [run_one_epoch_events_eq]
    exact List.mem_append_left _ (List.mem_append_left _ (List.mem_cons_self _ _))
  · dsimp only
    rw [List.countP_append, List.countP_append]
    rw [run_one_epoch_events_eq, List.countP_cons]
    rw [countP_flatMap_const Event.isSnapshot _ _ 0
      (fun x _ => countP_batchEvents_valid_zero Event.isSnapshot rfl (fun _ => rfl) ms L)]
    rw [save_result_eq_foldl, (saveResult_fold_frame true _ _ []).2]
    rw [List.nil_append,
      countP_map_logResult Event.isSnapshot (fun _ _ _ => rfl) _ _]
    rfl
  · dsimp only
    intro k i vq hmem
    rw [List.mem_append, List.mem_append] at hmem
    rcases hmem with (hmem | hmem) | hmem
    · rw [run_one_epoch_events_eq, List.mem_cons] at hmem
      rcases hmem with hmem | hmem
      · exact absurd hmem (by simp)
      · obtain ⟨x, _, hx⟩ := List.mem_flatMap.mp hmem
        rcases batchEvents_valid_shape ms L _ hx with h | ⟨c, h⟩ <;> simp at h
    · rw [save_result_eq_foldl, (saveResult_fold_frame true _ _ []).2,
        List.nil_append] at hmem
      obtain ⟨q, _, hq⟩ := List.mem_map.mp hmem
      have := congrArg (fun e => match e with
        | Event.logResult _ i _ => i
        | _ => (0 : Int)) hq
      simpa using this.symm
    · rw [List.mem_singleton] at hmem
      exact absurd hmem (by simp)
  · dsimp only
    exact List.mem_append_right _ (List.mem_singleton.mpr rfl)

/-- Witness for C9: a concrete standalone evaluation (batch size 2, 4
examples, `current_epoch = 5`) succeeds, runs its single validation epoch
against epoch index 4, logs at index 5, renders plots, writes no checkpoint
and keeps `current_epoch = 5`. -/
theorem evaluate_spec_witness :
    ∃ p : TrainerState × List Event,
      Trainer.evaluate ⟨[[2]], 0, [("loss", 0)], [], 5⟩ (fun _ _ => 1) ⟨1, 2, 4⟩ = .ok p ∧
      p.1.current_epoch = 5 ∧
      p.2.countP Event.isEpochStart = 1 ∧
      Event.epochStart 4 false false ∈ p.2 ∧
      p.2.countP Event.isSnapshot = 0 ∧
      (∀ k i vq, Event.logResult k i vq ∈ p.2 → i = 5) ∧
      Event.saveFig ∈ p.2 :=
  evaluate_spec ⟨[[2]], 0, [("loss", 0)], [], 5⟩ (fun _ _ => 1) ⟨1, 2, 4⟩ 2 [] []
    rfl rfl rfl

/-- C4: `Trainer.run` fails before any batch is pulled (the result is an
error and no event at all is emitted) whenever a supplied iterator's declared
variable count differs from the number of declared inputs or its batch size
differs from the first declared input's leading dimension; and the checks
happen once, before the epoch loop: when they all pass, the run succeeds for
every epoch count, so no check is re-run per epoch or per batch. -/
theorem run_preconditions (st : TrainerState) (tOracle vOracle : Int → Nat → CompId → ℚ)
    (ti : DataIterator) (vi : Option DataIterator) (epochs : Nat) :
    (ti.vars ≠ st.inputs.length →
      ∃ msg, Trainer.run st tOracle vOracle ti vi epochs = .error msg) ∧
    (∀ v', vi = some v' → v'.vars ≠ st.inputs.length →
      ∃ msg, Trainer.run st tOracle vOracle ti vi epochs = .error msg) ∧
    (∀ b ds shapes, st.inputs = (b :: ds) :: shapes → ti.batch_size ≠ b →
      ∃ msg, Trainer.run st tOracle vOracle ti vi epochs = .error msg) ∧
    (∀ b ds shapes v', st.inputs = (b :: ds) :: shapes → vi = some v' →
      v'.batch_size ≠ b →
      ∃ msg, Trainer.run st tOracle vOracle ti vi epochs = .error msg) ∧
    (∀ b ds shapes, st.inputs = (b :: ds) :: shapes →
      ti.vars = st.inputs.length →
      (∀ v', vi = some v' → v'.vars = st.inputs.length) →
      ti.batch_size = b →
      (∀ v', vi = some v' → v'.batch_size = b) →
      ∃ p, Trainer.run st tOracle vOracle ti vi epochs = .ok p) := by
  obtain ⟨ins, L, ms, store, ce⟩ := st
  dsimp only
  refine ⟨?_, ?_, ?_, ?_, ?_⟩
  · intro h
    refine ⟨"the number of varibales received from iterator must be equal to the number of input variables", ?_⟩
    simp only [Trainer.run]
    rw [if_pos h]
  · intro v' hv' h
    by_cases h1 : ti.vars ≠ ins.length
    · refine ⟨"the number of varibales received from iterator must be equal to the number of input variables", ?_⟩
      simp only [Trainer.run]
      rw [if_pos h1]
    · refine ⟨"the number of varibales received from iterator must be equal to the number of input variables", ?_⟩
      simp only [Trainer.run]
      rw [if_neg h1, if_pos (show varsOk ins.length vi = false by
        rw [hv']; exact beq_eq_false_iff_ne.mpr h)]
  · intro b ds shapes hins h
    subst hins
    by_cases h1 : ti.vars ≠ ((b :: ds) :: shapes).length
    · refine ⟨"the number of varibales received from iterator must be equal to the number of input variables", ?_⟩
      simp only [Trainer.run]
      rw [if_pos h1]
    · by_cases h2 : varsOk ((b :: ds) :: shapes).length vi = false
      · refine ⟨"the number of varibales received from iterator must be equal to the number of input variables", ?_⟩
        simp only [Trainer.run]
        rw [if_neg h1, if_pos h2]
      · refine ⟨"AssertionError: train_iter.batch_size == batch_size", ?_⟩
        simp only [Trainer.run]
        rw [if_neg h1, if_neg h2, if_pos h]
  · intro b ds shapes v' hins hv' h
    subst hins
    by_cases h1 : ti.vars ≠ ((b :: ds) :: shapes).length
    · refine ⟨"the number of varibales received from iterator must be equal to the number of input variables", ?_⟩
      simp only [Trainer.run]
      rw [if_pos h1]
    · by_cases h2 : varsOk ((b :: ds) :: shapes).length vi = false
      · refine ⟨"the number of varibales received from iterator must be equal to the number of input variables", ?_⟩
        simp only [Trainer.run]
        rw [if_neg h1, if_pos h2]
      · by_cases h3 : ti.batch_size ≠ b
        · refine ⟨"AssertionError: train_iter.batch_size == batch_size", ?_⟩
          simp only [Trainer.run]
          rw [if_neg h1, if_neg h2, if_pos h3]
        · refine ⟨"AssertionError: valid_iter.batch_size == batch_size", ?_⟩
          simp only [Trainer.run]
          rw [if_neg h1, if_neg h2, if_neg h3, if_pos (show batchSizeOk b vi = false by
            rw [hv']; exact beq_eq_false_iff_ne.mpr h)]
  · intro b ds shapes hins h1 h2 h3 h4
    subst hins
    have hne1 : ¬ ti.vars ≠ ((b :: ds) :: shapes).length := fun hc => hc h1
    have hne2 : ¬ varsOk ((b :: ds) :: shapes).length vi = false := by
      cases vi with
      | none => simp [varsOk]
      | some v' =>
          have := h2 v' rfl
          simp [varsOk, this]
    have hne3 : ¬ ti.batch_size ≠ b := fun hc => hc h3
    have hne4 : ¬ batchSizeOk b vi = false := by
      cases vi with
      | none => simp [batchSizeOk]
      | some v' =>
          have := h4 v' rfl
          simp [batchSizeOk, this]
    refine ⟨runEpochLoop tOracle vOracle vi (ti.size / b) b epochs ce
      ⟨(b :: ds) :: shapes, L, ms, store, ce⟩, ?_⟩
    simp only [Trainer.run]
    rw [if_neg hne1, if_neg hne2, if_neg hne3, if_neg hne4]

/-- Witness for C4: with one declared input of leading dimension 2, a
validation source declaring 2 variables (against 1 input) makes `run` fail
up front, and with a matching validation source the same call succeeds for
epoch count 3. -/
theorem run_preconditions_witness :
    (∃ msg, Trainer.run ⟨[[2]], 0, [("loss", 0)], [], 0⟩ (fun _ _ _ => 1) (fun _ _ _ => 1)
      ⟨1, 2, 4⟩ (some ⟨2, 2, 4⟩) 3 = .error msg) ∧
    (∃ p, Trainer.run ⟨[[2]], 0, [("loss", 0)], [], 0⟩ (fun _ _ _ => 1) (fun _ _ _ => 1)
      ⟨1, 2, 4⟩ (some ⟨1, 2, 4⟩) 3 = .ok p) := by
  constructor
  · exact (run_preconditions ⟨[[2]], 0, [("loss", 0)], [], 0⟩ (fun _ _ _ => 1)
      (fun _ _ _ => 1) ⟨1, 2, 4⟩ (some ⟨2, 2, 4⟩) 3).2.1 ⟨2, 2, 4⟩ rfl (by decide)
  · exact (run_preconditions ⟨[[2]], 0, [("loss", 0)], [], 0⟩ (fun _ _ _ => 1)
      (fun _ _ _ => 1) ⟨1, 2, 4⟩ (some ⟨1, 2, 4⟩) 3).2.2.2.2 2 [] [] rfl rfl
      (fun v' hv' => by injection hv' with h; subst h; rfl) rfl
      (fun v' hv' => by injection hv' with h; subst h; rfl)

theorem validPass_spec (s : TrainerState) (vO : Nat → CompId → ℚ)
    (vi : Option DataIterator) (bs : Nat) (epoch : Int)
    (m : List (String × CompId)) (L : CompId) (e : Int)
    (hm : s.metrics = m) (hl : s.loss = L) (he : s.current_epoch = e) :
    ((validPass s vO vi bs epoch).1.current_epoch = e ∧
     (validPass s vO vi bs epoch).1.metrics = m ∧
     (validPass s vO vi bs epoch).1.loss = L ∧
     (validPass s vO vi bs epoch).1.inputs = s.inputs) ∧
    (validPass s vO vi bs epoch).2 =
      (match vi with
       | none => []
       | some v =>
           (run_one_epoch m L vO (v.size / bs) epoch false false).2 ++
           (run_one_epoch m L vO (v.size / bs) epoch false false).1.map
             (fun p => Event.logResult p.1 (e + 1) p.2)) := by
  subst hm hl he
  cases vi with
  | none => exact ⟨⟨rfl, rfl, rfl, rfl⟩, rfl⟩
  | some v =>
      simp only [validPass]
      have hframe := saveResult_fold_frame false
        (run_one_epoch s.metrics s.loss vO (v.size / bs) epoch false false).1 s []
      rw [save_result_eq_foldl]
      refine ⟨⟨hframe.1.1, hframe.1.2.1, hframe.1.2.2.1, hframe.1.2.2.2⟩, ?_⟩
      rw [hframe.2, List.nil_append]
      simp


theorem runEpochLoop_spec (tOracle vOracle : Int → Nat → CompId → ℚ)
    (vi : Option DataIterator) (B bs : Nat) (E : Nat) :
    ∀ (e : Int) (st : TrainerState), st.current_epoch = e →
      ((runEpochLoop tOracle vOracle vi B bs E e st).1.current_epoch = e + E ∧
       (runEpochLoop tOracle vOracle vi B bs E e st).1.metrics = st.metrics ∧
       (runEpochLoop tOracle vOracle vi B bs E e st).1.loss = st.loss ∧
       (runEpochLoop tOracle vOracle vi B bs E e st).1.inputs = st.inputs) ∧
      (runEpochLoop tOracle vOracle vi B bs E e st).2 =
        (List.range E).flatMap (fun k =>
          iterTrace st.metrics st.loss tOracle vOracle vi B bs (e + k)) := by
  induction E with
  | zero =>
      intro e st h
      refine ⟨⟨?_, rfl, rfl, rfl⟩, by simp [runEpochLoop]⟩
      simp [runEpochLoop, h]
  | succ E ih =>
      intro e st hce
      simp only [runEpochLoop]
      set A := run_one_epoch st.metrics st.loss (tOracle e) B e true true with hA
      set S := save_result st A.1 false with hSdef
      set V := validPass S.1 (vOracle e) vi bs e with hVdef
      set T : TrainerState := { V.1 with current_epoch := V.1.current_epoch + 1 } with hTdef
      set R := runEpochLoop tOracle vOracle vi B bs E (e + 1) T with hRdef
      have hS := saveResult_fold_frame false A.1 st []
      have hSce : S.1.current_epoch = e := by
        rw [hSdef, save_result_eq_foldl]
        exact hS.1.1.trans hce
      have hSm : S.1.metrics = st.metrics := by
        rw [hSdef, save_result_eq_foldl]
        exact hS.1.2.1
      have hSl : S.1.loss = st.loss := by
        rw [hSdef, save_result_eq_foldl]
        exact hS.1.2.2.1
      have hSi : S.1.inputs = st.inputs := by
        rw [hSdef, save_result_eq_foldl]
        exact hS.1.2.2.2
      have hS2 : S.2 = A.1.map (fun p => Event.logResult p.1 (e + 1) p.2) := by
        rw [hSdef, save_result_eq_foldl, hS.2, List.nil_append]
        simp [hce]
      have hV := validPass_spec S.1 (vOracle e) vi bs e st.metrics st.loss e hSm hSl hSce
      have hVce : V.1.current_epoch = e := hV.1.1
      have hVm : V.1.metrics = st.metrics := hV.1.2.1
      have hVl : V.1.loss = st.loss := hV.1.2.2.1
      have hVi : V.1.inputs = st.inputs := hV.1.2.2.2.trans hSi
      have hTce : T.current_epoch = e + 1 := by
        rw [hTdef]
        show V.1.current_epoch + 1 = e + 1
        rw [hVce]
      have hR := ih (e + 1) T hTce
      have hTm : T.metrics = st.metrics := by
        rw [hTdef]
        show V.1.metrics = st.metrics
        exact hVm
      have hTl : T.loss = st.loss := by
        rw [hTdef]
        show V.1.loss = st.loss
        exact hVl
      have hTi : T.inputs = st.inputs := by
        rw [hTdef]
        show V.1.inputs = st.inputs
        exact hVi
      constructor
      · refine ⟨?_, (hR.1.2.1).trans hTm, (hR.1.2.2.1).trans hTl, (hR.1.2.2.2).trans hTi⟩
        rw [hR.1.1]
        push_cast
        ring
      · rw [hS2, hV.2, hVce, hR.2, hTm, hTl]
        rw [List.range_succ_eq_map, List.flatMap_cons, List.flatMap_map]
        have h0 : ((0 : Nat) : Int) = 0 := rfl
        have hfe : (fun k : Nat =>
            iterTrace st.metrics st.loss tOracle vOracle vi B bs (e + (Nat.succ k : Nat))) =
            (fun k : Nat =>
              iterTrace st.metrics st.loss tOracle vOracle vi B bs ((e + 1) + k)) := by
          funext k
          congr 1
          push_cast
          ring
        rw [hfe]
        simp only [iterTrace, h0, add_zero]

theorem iterTrace_counts (m : List (String × CompId)) (L : CompId)
    (tO vO : Int → Nat → CompId → ℚ) (vi : Option DataIterator) (B bs : Nat) (e : Int) :
    (iterTrace m L tO vO vi B bs e).countP Event.isUpdate = B ∧
    (iterTrace m L tO vO vi B bs e).countP Event.isTrainEpochStart = 1 ∧
    (iterTrace m L tO vO vi B bs e).countP Event.isSnapshot = 1 := by
  have hupT : ((List.range B).flatMap (fun _ => batchEvents m L true)).countP
      Event.isUpdate = B := by
    rw [countP_flatMap_const Event.isUpdate _ _ 1
      (fun x _ => countP_update_batchEvents_train m L)]
    simp
  have hupF : ∀ n, ((List.range n).flatMap (fun _ => batchEvents m L false)).countP
      Event.isUpdate = 0 := by
    intro n
    rw [countP_flatMap_const Event.isUpdate _ _ 0
      (fun x _ => countP_update_batchEvents_valid m L)]
    simp
  have htrT : ((List.range B).flatMap (fun _ => batchEvents m L true)).countP
      Event.isTrainEpochStart = 0 := by
    rw [countP_flatMap_const Event.isTrainEpochStart _ _ 0
      (fun x _ => countP_batchEvents_zero Event.isTrainEpochStart rfl (fun _ => rfl) rfl
        (fun _ => rfl) rfl m L true)]
    simp
  have htrF : ∀ n, ((List.range n).flatMap (fun _ => batchEvents m L false)).countP
      Event.isTrainEpochStart = 0 := by
    intro n
    rw [countP_flatMap_const Event.isTrainEpochStart _ _ 0
      (fun x _ => countP_batchEvents_valid_zero Event.isTrainEpochStart rfl
        (fun _ => rfl) m L)]
    simp
  have hsnT : ((List.range B).flatMap (fun _ => batchEvents m L true)).countP
      Event.isSnapshot = 0 := by
    rw [countP_flatMap_const Event.isSnapshot _ _ 0
      (fun x _ => countP_batchEvents_zero Event.isSnapshot rfl (fun _ => rfl) rfl
        (fun _ => rfl) rfl m L true)]
    simp
  have hsnF : ∀ n, ((List.range n).flatMap (fun _ => batchEvents m L false)).countP
      Event.isSnapshot = 0 := by
    intro n
    rw [countP_flatMap_const Event.isSnapshot _ _ 0
      (fun x _ => countP_batchEvents_valid_zero Event.isSnapshot rfl (fun _ => rfl) m L)]
    simp
  cases vi with
  | none =>
      refine ⟨?_, ?_, ?_⟩ <;>
        simp [iterTrace, run_one_epoch_events_eq, List.countP_append, List.countP_cons,
          hupT, hupF, htrT, htrF, hsnT, hsnF,
          countP_map_logResult Event.isUpdate (fun _ _ _ => rfl),
          countP_map_logResult Event.isTrainEpochStart (fun _ _ _ => rfl),
          countP_map_logResult Event.isSnapshot (fun _ _ _ => rfl),
          Event.isUpdate, Event.isTrainEpochStart, Event.isSnapshot]
  | some v =>
      refine ⟨?_, ?_, ?_⟩ <;>
        simp [iterTrace, run_one_epoch_events_eq, List.countP_append, List.countP_cons,
          hupT, hupF, htrT, htrF, hsnT, hsnF,
          countP_map_logResult Event.isUpdate (fun _ _ _ => rfl),
          countP_map_logResult Event.isTrainEpochStart (fun _ _ _ => rfl),
          countP_map_logResult Event.isSnapshot (fun _ _ _ => rfl),
          Event.isUpdate, Event.isTrainEpochStart, Event.isSnapshot]

/-- C2: a call to `Trainer.run` whose preconditions hold succeeds and, with
`B = train_iter.size / train_iter.batch_size` batches per epoch and `E`
target epochs, performs exactly `B * E` gradient-update cycles, starts
exactly `E` training epochs (each producing and logging an EpochResult) and
writes exactly `E` checkpoints; the whole trace is the concatenation, for
`k < E`, of: the training epoch at epoch index `current_epoch + k`, the
logging of its EpochResult at index `current_epoch + k + 1`, the optional
validation epoch with its logging, one plot re-rendering and one checkpoint
write — and `current_epoch` grows by exactly `E`. -/
theorem run_spec (st : TrainerState) (tOracle vOracle : Int → Nat → CompId → ℚ)
    (ti : DataIterator) (vi : Option DataIterator) (epochs : Nat)
    (b : Nat) (ds : List Nat) (shapes : List (List Nat))
    (hins : st.inputs = (b :: ds) :: shapes)
    (h1 : ti.vars = st.inputs.length)
    (h2 : ∀ v', vi = some v' → v'.vars = st.inputs.length)
    (h3 : ti.batch_size = b)
    (h4 : ∀ v', vi = some v' → v'.batch_size = b) :
    ∃ p : TrainerState × List Event,
      Trainer.run st tOracle vOracle ti vi epochs = .ok p ∧
      p.1.current_epoch = st.current_epoch + epochs ∧
      p.2 = (List.range epochs).flatMap (fun k =>
        iterTrace st.metrics st.loss tOracle vOracle vi (ti.size / ti.batch_size)
          ti.batch_size (st.current_epoch + k)) ∧
      p.2.countP Event.isUpdate = (ti.size / ti.batch_size) * epochs ∧
      p.2.countP Event.isTrainEpochStart = epochs ∧
      p.2.countP Event.isSnapshot = epochs := by
  obtain ⟨ins, L, ms, store, ce⟩ := st
  dsimp only at hins h1 h2 h3 h4 ⊢
  subst hins
  subst h3
  have hne1 : ¬ ti.vars ≠ ((ti.batch_size :: ds) :: shapes).length := fun hc => hc h1
  have hne2 : ¬ varsOk ((ti.batch_size :: ds) :: shapes).length vi = false := by
    cases vi with
    | none => simp [varsOk]
    | some v' =>
        have := h2 v' rfl
        simp [varsOk, this]
  have hne3 : ¬ ti.batch_size ≠ ti.batch_size := fun hc => hc rfl
  have hne4 : ¬ batchSizeOk ti.batch_size vi = false := by
    cases vi with
    | none => simp [batchSizeOk]
    | some v' =>
        have := h4 v' rfl
        simp [batchSizeOk, this]
  have hloop := runEpochLoop_spec tOracle vOracle vi (ti.size / ti.batch_size)
    ti.batch_size epochs ce ⟨(ti.batch_size :: ds) :: shapes, L, ms, store, ce⟩ rfl
  dsimp only at hloop
  refine ⟨runEpochLoop tOracle vOracle vi (ti.size / ti.batch_size) ti.batch_size epochs ce
    ⟨(ti.batch_size :: ds) :: shapes, L, ms, store, ce⟩, ?_, ?_, ?_, ?_, ?_, ?_⟩
  · simp only [Trainer.run]
    rw [if_neg hne1, if_neg hne2, if_neg hne3, if_neg hne4]
  · exact hloop.1.1
  · exact hloop.2
  · rw [hloop.2]
    rw [countP_flatMap_const Event.isUpdate _ _ (ti.size / ti.batch_size)
      (fun (x : Nat) _ => (iterTrace_counts ms L tOracle vOracle vi (ti.size / ti.batch_size)
        ti.batch_size (ce + x)).1)]
    rw [List.length_range, Nat.mul_comm]
  · rw [hloop.2]
    rw [countP_flatMap_const Event.isTrainEpochStart _ _ 1
      (fun (x : Nat) _ => (iterTrace_counts ms L tOracle vOracle vi (ti.size / ti.batch_size)
        ti.batch_size (ce + x)).2.1)]
    rw [List.length_range, Nat.mul_one]
  · rw [hloop.2]
    rw [countP_flatMap_const Event.isSnapshot _ _ 1
      (fun (x : Nat) _ => (iterTrace_counts ms L tOracle vOracle vi (ti.size / ti.batch_size)
        ti.batch_size (ce + x)).2.2)]
    rw [List.length_range, Nat.mul_one]

/-- Witness for C2: batch size 2, 4 total examples (2 batches per epoch),
no validation source, 3 target epochs: the run succeeds, performs 2*3 = 6
update cycles, starts 3 training epochs, writes 3 checkpoints, and advances
`current_epoch` from 0 to 3. -/
theorem run_spec_witness :
    ∃ p : TrainerState × List Event,
      Trainer.run ⟨[[2]], 0, [("loss", 0)], [], 0⟩ (fun _ _ _ => 1) (fun _ _ _ => 1)
        ⟨1, 2, 4⟩ none 3 = .ok p ∧
      p.1.current_epoch = 0 + 3 ∧
      p.2 = (List.range 3).flatMap (fun k =>
        iterTrace [("loss", 0)] 0 (fun _ _ _ => 1) (fun _ _ _ => 1) none (4 / 2) 2 (0 + k)) ∧
      p.2.countP Event.isUpdate = (4 / 2) * 3 ∧
      p.2.countP Event.isTrainEpochStart = 3 ∧
      p.2.countP Event.isSnapshot = 3 :=
  run_spec ⟨[[2]], 0, [("loss", 0)], [], 0⟩ (fun _ _ _ => 1) (fun _ _ _ => 1)
    ⟨1, 2, 4⟩ none 3 2 [] [] rfl rfl (fun v' hv' => Option.noConfusion hv') rfl
    (fun v' hv' => Option.noConfusion hv')
